import Mathlib

/-!
Verification of the locale-catalog comparison engine of `compare_locales.py`.

The script loads `src/locales/en.json` as the reference catalog, flattens every
catalog into a dict from dotted key paths to leaf values (`get_keys`), extracts
interpolation placeholders with the regex `\{[^{}]+\}` (`extract_placeholders`),
compares the reference against every other `*.json` file in the directory
(missing / extra / untranslated / interpolation-mismatch detection), and renders
one report section per target file into `locale_audit.txt`.

The embedding below follows the source line by line.  JSON values are modelled
by `JValue` (objects recurse, every other constructor is a leaf); Python dicts
produced by `get_keys` are modelled as the full insertion sequence, with the
dict views `fkeys` (key set: every inserted key once) and `jget` (last-wins
lookup, matching repeated `dict.update` / item assignment).  Numeric leaves are
modelled as integers; Python's cross-type numeric equalities (`1 == True`) are
outside the model.  Python `set`s of strings are modelled as duplicate-free
lists compared by membership (`pySetEqB`), and Python `==` on parsed JSON
values by the structural test `beqV`.
-/

namespace CompareLocales

mutual
/-- A parsed JSON value.  `obj` is the only branching node; `isinstance(v, dict)`
in the source corresponds exactly to the `obj` constructor. -/
inductive JValue where
  | str (s : String)
  | num (n : Int)
  | bool (b : Bool)
  | null
  | obj (fields : JFields)
/-- The ordered field list of a JSON object. -/
inductive JFields where
  | nil
  | cons (k : String) (v : JValue) (rest : JFields)
end

mutual
/-- Structural equality test on JSON values (Python `==` on parsed JSON data). -/
def beqV : JValue → JValue → Bool
  | JValue.str a, JValue.str b => a == b
  | JValue.num a, JValue.num b => a == b
  | JValue.bool a, JValue.bool b => a == b
  | JValue.null, JValue.null => true
  | JValue.obj a, JValue.obj b => beqF a b
  | _, _ => false
/-- Structural equality test on JSON object field lists. -/
def beqF : JFields → JFields → Bool
  | JFields.nil, JFields.nil => true
  | JFields.cons k v r, JFields.cons k2 v2 r2 => k == k2 && beqV v v2 && beqF r r2
  | _, _ => false
end

/-- Python `prefix + "." + k if prefix else k` (line 18 of the source). -/
def childPath (pfx k : String) : String :=
  if pfx = "" then k else pfx ++ "." ++ k

/-- `get_keys(data, prefix)` (lines 15-23): flatten a nested object into the
sequence of `(dotted path, leaf value)` pairs in traversal order.  The Python
function accumulates these pairs into a dict (`keys.update` / item assignment),
so the dict it returns has the key set `fkeys` and the last-wins lookup `jget`
defined below. -/
def get_keys : JFields → String → List (String × JValue)
  | JFields.nil, _ => []
  | JFields.cons k (JValue.obj fs) rest, pfx =>
      get_keys fs (childPath pfx k) ++ get_keys rest pfx
  | JFields.cons k v rest, pfx => (childPath pfx k, v) :: get_keys rest pfx

/-- Key set of a flattened catalog: each inserted key exactly once
(`set(keys_dict.keys())` in the source). -/
def fkeys (l : List (String × JValue)) : List String :=
  (l.map Prod.fst).dedup

/-- Dict item lookup `d[k]` on a flattened catalog: the value of the last
insertion for `k` (Python dict assignment overwrites).  Total with default
`null`; the comparator only applies it to keys present in the catalog. -/
def jget (l : List (String × JValue)) (k : String) : JValue :=
  (List.lookup k l.reverse).getD JValue.null

/-- Number of leaves of a nested object (each non-`obj` value is one leaf). -/
def leafCount : JFields → Nat
  | JFields.nil => 0
  | JFields.cons _ (JValue.obj fs) rest => leafCount fs + leafCount rest
  | JFields.cons _ _ rest => 1 + leafCount rest

/-- `isinstance(text, str)` (line 26). -/
def isStr : JValue → Bool
  | JValue.str _ => true
  | _ => false

/-- One left-to-right pass of `re.findall(r'\{[^\x7b\x7d]+\}', text)` over the
character sequence.  The state is `none` outside a candidate match and
`some acc` when a `{` has been seen and `acc` holds the (reversed) non-brace
characters read since; a fresh `{` restarts the candidate (the regex can never
match across a `{`), a `}` closes it, and an empty body is not a match. -/
def scanPH : List Char → Option (List Char) → List String
  | [], _ => []
  | c :: rest, none => if c = '{' then scanPH rest (some []) else scanPH rest none
  | c :: rest, some acc =>
      if c = '}' then
        (if acc.isEmpty then scanPH rest none
         else String.mk ('{' :: acc.reverse ++ ['}']) :: scanPH rest none)
      else if c = '{' then scanPH rest (some [])
      else scanPH rest (some (c :: acc))

/-- `extract_placeholders` (lines 25-28): the set of distinct `{...}` tokens of
a string leaf, empty for any non-string leaf.  The Python `set` is modelled as
the duplicate-free list of tokens. -/
def extract_placeholders (text : JValue) : List String :=
  match text with
  | JValue.str s => (scanPH s.data none).dedup
  | _ => []

/-- Python `set` equality on string sets modelled as lists: same members. -/
def pySetEqB (a b : List String) : Bool :=
  a.all (fun x => decide (x ∈ b)) && b.all (fun x => decide (x ∈ a))

/-- Python `set` equality as a proposition: the two lists have the same members. -/
def sameSet (a b : List String) : Prop :=
  ∀ x, x ∈ a ↔ x ∈ b

/-- Python `k.startswith(p)` via the character sequences. -/
def startsWithCL : List Char → List Char → Bool
  | _, [] => true
  | [], _ :: _ => false
  | c :: cs, p :: ps => p == c && startsWithCL cs ps

/-- Python `k.startswith(p)`. -/
def pyStartsWith (s p : String) : Bool :=
  startsWithCL s.data p.data

/-- Python `s.endswith(p)`: the reversed pattern starts the reversed string. -/
def pyEndsWith (s p : String) : Bool :=
  startsWithCL s.data.reverse p.data.reverse

/-- The result of one reference/target comparison (lines 42-57): the four
defect collections for a single target catalog. -/
structure CompareResult where
  missing : List String
  extra : List String
  same_as_en : List String
  interpolation_mismatches : List (String × List String × List String)
deriving DecidableEq

/-- Lines 42-57 of the source: set differences of the key sets, then one pass
over the shared keys collecting untranslated keys and placeholder-set
mismatches.  Python iterates `en_keys & keys` in unspecified set order; the
embedding fixes the reference key order, which is irrelevant to every
set-membership statement below. -/
def compareCatalogs (en_keys_dict keys_dict : List (String × JValue)) : CompareResult :=
  let en_keys := fkeys en_keys_dict
  let keys := fkeys keys_dict
  let shared := en_keys.filter (fun k => decide (k ∈ keys))
  { missing := en_keys.filter (fun k => decide (k ∉ keys))
    extra := keys.filter (fun k => decide (k ∉ en_keys))
    same_as_en := shared.filter (fun k =>
      beqV (jget en_keys_dict k) (jget keys_dict k)
      && !(beqV (jget en_keys_dict k) (JValue.str ""))
      && !(pyStartsWith k "app.") && !(pyStartsWith k "languages."))
    interpolation_mismatches := shared.filterMap (fun k =>
      let en_p := extract_placeholders (jget en_keys_dict k)
      let loc_p := extract_placeholders (jget keys_dict k)
      if pySetEqB en_p loc_p then none else some (k, en_p, loc_p)) }

/-- Lexicographic `≤` on character sequences by code point: exactly Python's
string comparison, used by `sorted(...)` in the source. -/
def lexLe : List Char → List Char → Bool
  | [], _ => true
  | _ :: _, [] => false
  | a :: as, b :: bs => if a < b then true else if a = b then lexLe as bs else false

/-- Python string `≤` (lexicographic by code point). -/
def strle (a b : String) : Bool :=
  lexLe a.data b.data

/-- Python `sorted` on a list of strings. -/
def sortStr (l : List String) : List String :=
  List.insertionSort (fun a b => strle a b = true) l

/-- Python `repr` of a string, as interpolated into the report f-strings.
Quote-escaping corner cases of `repr` are not modelled. -/
def pyRepr (s : String) : String :=
  "'" ++ s ++ "'"

/-- Python `repr` of a list of strings. -/
def pyReprList (l : List String) : String :=
  "[" ++ String.intercalate ", " (l.map pyRepr) ++ "]"

/-- Python `repr` of a set of strings (modelled as a list of its members). -/
def pyReprSet (l : List String) : String :=
  if l.isEmpty then "set()"
  else "\x7b" ++ String.intercalate ", " (l.map pyRepr) ++ "\x7d"

/-- Lines 59-74 of the source: the report section for one target file.  Each
non-empty defect list is shown with its full count and the first 20 entries of
its sorted form; up to 10 interpolation mismatches get a detail line each. -/
def renderSection (filename : String) (r : CompareResult) : String :=
  "--- " ++ filename ++ " ---\n"
  ++ (if r.missing.isEmpty then "No missing keys.\n"
      else "Missing keys (" ++ toString r.missing.length ++ "): "
        ++ pyReprList ((sortStr r.missing).take 20) ++ "\n")
  ++ (if r.same_as_en.isEmpty then ""
      else "Untranslated keys (same as EN, " ++ toString r.same_as_en.length ++ "): "
        ++ pyReprList ((sortStr r.same_as_en).take 20) ++ "\n")
  ++ (if r.interpolation_mismatches.isEmpty then ""
      else "Interpolation mismatches (" ++ toString r.interpolation_mismatches.length ++ "):\n"
        ++ String.join ((r.interpolation_mismatches.take 10).map (fun m =>
            "  " ++ m.1 ++ ": EN " ++ pyReprSet m.2.1 ++ " VS LOC " ++ pyReprSet m.2.2 ++ "\n")))
  ++ (if r.extra.isEmpty then ""
      else "Extra keys (" ++ toString r.extra.length ++ "): "
        ++ pyReprList ((sortStr r.extra).take 20) ++ "\n")

/-- The target files the run loop processes (lines 35-36): the directory
listing sorted by name, restricted to `*.json` files other than the reference.
Each entry carries the outcome of `json.load` on that file: `Except.ok` the
parsed object, or `Except.error` the parse/read exception message. -/
def targetsOf (files : List (String × Except String JFields)) :
    List (String × Except String JFields) :=
  (List.insertionSort (fun a b => strle a.1 b.1 = true) files).filter
    (fun t => pyEndsWith t.1 ".json" && !(t.1 == "en.json"))

/-- The body of the run loop (lines 35-75) over the selected target files, in
order.  A `json.load` failure raises: the exception propagates out of the loop
(there is no try/except in the source), so the whole run produces an error and
the sections of every other file are discarded.  On success the result is the
list of rendered sections. -/
def runTargets (en_keys_dict : List (String × JValue)) :
    List (String × Except String JFields) → Except String (List String)
  | [] => Except.ok []
  | (_, Except.error e) :: _ => Except.error e
  | (name, Except.ok data) :: rest =>
      match runTargets en_keys_dict rest with
      | Except.error e => Except.error e
      | Except.ok sections =>
          Except.ok (renderSection name (compareCatalogs en_keys_dict (get_keys data "")) :: sections)

/-- Observable outcome of one run of the script: the lines printed to the
standard output stream, the lines printed to the error stream, the process
exit status, and the contents written to `locale_audit.txt` (`none` when the
run terminates without writing the report). -/
structure RunOutcome where
  out : List String
  err : List String
  exitCode : Nat
  reportFile : Option String
deriving DecidableEq

/-- Top level of the script (lines 8-78).  `enPresent` is the result of the
`os.path.exists` check on `src/locales/en.json`: when it fails the script
prints the error with `print` (standard output, not the error stream) and calls
`exit(1)` before reading any catalog.  Otherwise the run loop processes the
sorted target files; an uncaught exception aborts the interpreter with exit
status 1 and a traceback on the error stream, and no report file is written.
On success the report is written and the script exits 0 printing nothing. -/
def runMain (enPresent : Bool) (en_data : JFields)
    (files : List (String × Except String JFields)) : RunOutcome :=
  if enPresent = false then
    { out := ["Error: src/locales/en.json not found"], err := [], exitCode := 1, reportFile := none }
  else
    match runTargets (get_keys en_data "") (targetsOf files) with
    | Except.error e =>
        { out := [], err := [e], exitCode := 1, reportFile := none }
    | Except.ok results =>
        { out := [], err := [], exitCode := 0,
          reportFile := some (String.intercalate "\n" results) }

/-- The keys of the top level of an object. -/
def fieldKeys : JFields → List String
  | JFields.nil => []
  | JFields.cons k _ rest => k :: fieldKeys rest

/-- The leaf paths of an object as segment lists (one segment per traversal
step), in traversal order — `get_keys` produces exactly the dot-joins of
these. -/
def pathSegs : JFields → List (List String)
  | JFields.nil => []
  | JFields.cons k (JValue.obj fs) rest => (pathSegs fs).map (fun p => k :: p) ++ pathSegs rest
  | JFields.cons k _ rest => [k] :: pathSegs rest

/-- A key that cannot interfere with dotted path joining: non-empty and free of
the dot character. -/
def goodKey (s : String) : Bool :=
  !(s == "") && !(decide ('.' ∈ s.data))

mutual
/-- Every key of every object node below this value is a `goodKey`, and sibling
keys are pairwise distinct (as Python dict keys are). -/
def goodV : JValue → Bool
  | JValue.obj fs => goodF fs
  | _ => true
/-- `goodV` for every value of a field list, `goodKey` and no duplicate for
every key. -/
def goodF : JFields → Bool
  | JFields.nil => true
  | JFields.cons k v rest =>
      goodKey k && goodV v && !(decide (k ∈ fieldKeys rest)) && goodF rest
end

/-- Join path segments with dots. -/
def dotJoin : List String → String
  | [] => ""
  | [k] => k
  | k :: rest => k ++ "." ++ dotJoin rest

/-- The dotted path reached from the accumulated prefix `pfx` through the
segments `p`, exactly as the recursion of `get_keys` builds it. -/
def joinSegs (pfx : String) (p : List String) : String :=
  p.foldl childPath pfx

/-- The targets of a run in processing order, for a directory whose files all
parse: sorted by name and filtered to `*.json` other than the reference. -/
def orderedTargets (tgts : List (String × JFields)) : List (String × JFields) :=
  (List.insertionSort (fun a b => strle a.1 b.1 = true) tgts).filter
    (fun t => pyEndsWith t.1 ".json" && !(t.1 == "en.json"))

/-- A directory entry whose file parses successfully. -/
def okFile (t : String × JFields) : String × Except String JFields :=
  (t.1, Except.ok t.2)

mutual
theorem beqV_iff : ∀ a b : JValue, beqV a b = true ↔ a = b
  | JValue.str a, JValue.str b => by simp [beqV]
  | JValue.str a, JValue.num b => by simp [beqV]
  | JValue.str a, JValue.bool b => by simp [beqV]
  | JValue.str a, JValue.null => by simp [beqV]
  | JValue.str a, JValue.obj b => by simp [beqV]
  | JValue.num a, JValue.str b => by simp [beqV]
  | JValue.num a, JValue.num b => by simp [beqV]
  | JValue.num a, JValue.bool b => by simp [beqV]
  | JValue.num a, JValue.null => by simp [beqV]
  | JValue.num a, JValue.obj b => by simp [beqV]
  | JValue.bool a, JValue.str b => by simp [beqV]
  | JValue.bool a, JValue.num b => by simp [beqV]
  | JValue.bool a, JValue.bool b => by simp [beqV]
  | JValue.bool a, JValue.null => by simp [beqV]
  | JValue.bool a, JValue.obj b => by simp [beqV]
  | JValue.null, JValue.str b => by simp [beqV]
  | JValue.null, JValue.num b => by simp [beqV]
  | JValue.null, JValue.bool b => by simp [beqV]
  | JValue.null, JValue.null => by simp [beqV]
  | JValue.null, JValue.obj b => by simp [beqV]
  | JValue.obj a, JValue.str b => by simp [beqV]
  | JValue.obj a, JValue.num b => by simp [beqV]
  | JValue.obj a, JValue.bool b => by simp [beqV]
  | JValue.obj a, JValue.null => by simp [beqV]
  | JValue.obj a, JValue.obj b => by simp [beqV, beqF_iff a b]
theorem beqF_iff : ∀ a b : JFields, beqF a b = true ↔ a = b
  | JFields.nil, JFields.nil => by simp [beqF]
  | JFields.nil, JFields.cons k v r => by simp [beqF]
  | JFields.cons k v r, JFields.nil => by simp [beqF]
  | JFields.cons k v r, JFields.cons k2 v2 r2 => by
      simp [beqF, beqV_iff v v2, beqF_iff r r2, and_assoc]
end

theorem beqV_eq_false (a b : JValue) : beqV a b = false ↔ a ≠ b := by
  rw [Ne, ← beqV_iff a b]
  cases beqV a b <;> simp

theorem beqV_refl (a : JValue) : beqV a a = true :=
  (beqV_iff a a).mpr rfl

theorem pySetEqB_iff (a b : List String) : pySetEqB a b = true ↔ sameSet a b := by
  constructor
  · intro h x
    rw [pySetEqB, Bool.and_eq_true, List.all_eq_true, List.all_eq_true] at h
    constructor
    · intro hx
      simpa using h.1 x hx
    · intro hx
      simpa using h.2 x hx
  · intro h
    rw [pySetEqB, Bool.and_eq_true, List.all_eq_true, List.all_eq_true]
    constructor
    · intro x hx
      simpa using (h x).mp hx
    · intro x hx
      simpa using (h x).mpr hx

theorem pySetEqB_refl (a : List String) : pySetEqB a a = true :=
  (pySetEqB_iff a a).mpr (fun _ => Iff.rfl)

example :
    compareCatalogs [("a.b", JValue.str "Hello x")] [("a.b", JValue.str "Bonjour y")]
      = { missing := [], extra := [], same_as_en := [], interpolation_mismatches := [] } := by
  decide

example :
    (compareCatalogs [("a", JValue.str "1"), ("b", JValue.str "2")] [("a", JValue.str "1")]).missing
      = ["b"] := by
  decide

example :
    runTargets [] [("a.json", Except.error "boom"), ("b.json", Except.ok JFields.nil)]
      = Except.error "boom" := rfl

example :
    (runMain false JFields.nil []).out = ["Error: src/locales/en.json not found"] := by
  decide

example :
    sortStr ["fr", "de", "es"] = ["de", "es", "fr"] := by
  decide

example :
    extract_placeholders (JValue.str "Hi \x7bname\x7d and \x7bname\x7d")
      = ["\x7bname\x7d"] := by
  decide

theorem mem_missing_iff (R T : List (String × JValue)) (k : String) :
    k ∈ (compareCatalogs R T).missing ↔ k ∈ fkeys R ∧ k ∉ fkeys T := by
  simp [compareCatalogs, List.mem_filter]

theorem mem_extra_iff (R T : List (String × JValue)) (k : String) :
    k ∈ (compareCatalogs R T).extra ↔ k ∈ fkeys T ∧ k ∉ fkeys R := by
  simp [compareCatalogs, List.mem_filter]

theorem fkeys_nodup (l : List (String × JValue)) : (fkeys l).Nodup :=
  List.nodup_dedup _

/-- C1: for every reference flat catalog `R` and target flat catalog `T`, the
comparator's `missing` is exactly the set difference `keys(R) − keys(T)` and
its `extra` is exactly `keys(T) − keys(R)` (membership characterization, plus
freedom from duplicates so that each list denotes its set). -/
theorem comparator_missing_extra_sets (R T : List (String × JValue)) (k : String) :
    (k ∈ (compareCatalogs R T).missing ↔ k ∈ fkeys R ∧ k ∉ fkeys T)
    ∧ (k ∈ (compareCatalogs R T).extra ↔ k ∈ fkeys T ∧ k ∉ fkeys R)
    ∧ (compareCatalogs R T).missing.Nodup
    ∧ (compareCatalogs R T).extra.Nodup := by
  refine ⟨mem_missing_iff R T k, mem_extra_iff R T k, ?_, ?_⟩
  · exact (fkeys_nodup R).filter _
  · exact (fkeys_nodup T).filter _

/-- C2: a shared key is flagged as untranslated exactly when the two values are
identical, the reference value is not the empty string, and the key starts with
neither excluded prefix (`app.`, `languages.`);  value equality is structural
identity of the leaves, with no normalization. -/
theorem untranslated_flag_iff (R T : List (String × JValue)) (k : String)
    (hR : k ∈ fkeys R) (hT : k ∈ fkeys T) :
    k ∈ (compareCatalogs R T).same_as_en ↔
      (jget R k = jget T k ∧ jget R k ≠ JValue.str ""
        ∧ pyStartsWith k "app." = false ∧ pyStartsWith k "languages." = false) := by
  simp [compareCatalogs, List.mem_filter, hR, hT, beqV_iff, beqV_eq_false, and_assoc]

/-- Instantiation of `untranslated_flag_iff` at a concrete catalog pair: the
key `greet` with value `Hello` on both sides is reported untranslated. -/
theorem untranslated_flag_iff_witness :
    "greet" ∈ (compareCatalogs [("greet", JValue.str "Hello")]
        [("greet", JValue.str "Hello")]).same_as_en ↔
      (jget [("greet", JValue.str "Hello")] "greet"
          = jget [("greet", JValue.str "Hello")] "greet"
        ∧ jget [("greet", JValue.str "Hello")] "greet" ≠ JValue.str ""
        ∧ pyStartsWith "greet" "app." = false
        ∧ pyStartsWith "greet" "languages." = false) :=
  untranslated_flag_iff [("greet", JValue.str "Hello")] [("greet", JValue.str "Hello")]
    "greet" (by decide) (by decide)

/-- C3: a shared key is flagged as an interpolation mismatch — with both
placeholder sets recorded — exactly when the placeholder sets of the two values
differ as sets; in particular two values whose tokens merely appear in
different orders are not flagged. -/
theorem interpolation_mismatch_iff :
    (∀ (R T : List (String × JValue)) (k : String), k ∈ fkeys R → k ∈ fkeys T →
      ((k, extract_placeholders (jget R k), extract_placeholders (jget T k))
          ∈ (compareCatalogs R T).interpolation_mismatches
        ↔ ¬ sameSet (extract_placeholders (jget R k)) (extract_placeholders (jget T k))))
    ∧ (compareCatalogs [("k", JValue.str "\x7ba\x7d\x7bb\x7d")]
        [("k", JValue.str "\x7bb\x7d\x7ba\x7d")]).interpolation_mismatches = [] := by
  constructor
  · intro R T k hR hT
    constructor
    · intro hmem
      rw [compareCatalogs] at hmem
      simp only [List.mem_filterMap, List.mem_filter] at hmem
      obtain ⟨a, _, ha⟩ := hmem
      by_cases hset : pySetEqB (extract_placeholders (jget R a)) (extract_placeholders (jget T a)) = true
      · simp [hset] at ha
      · simp [hset] at ha
        intro hsame
        exact hset ((pySetEqB_iff _ _).mpr (ha.1 ▸ hsame))
    · intro hdiff
      have hset : pySetEqB (extract_placeholders (jget R k)) (extract_placeholders (jget T k)) = false := by
        by_contra hc
        exact hdiff ((pySetEqB_iff _ _).mp (by revert hc; cases pySetEqB (extract_placeholders (jget R k)) (extract_placeholders (jget T k)) <;> simp))
      rw [compareCatalogs]
      simp only [List.mem_filterMap, List.mem_filter]
      exact ⟨k, by simp [hR, hT], by simp [hset]⟩
  · decide

/-- Instantiation of `interpolation_mismatch_iff` at the concrete catalogs
`R = [a.b ↦ "Hello \x7bx\x7d"]`, `T = [a.b ↦ "Bonjour \x7by\x7d"]`. -/
theorem interpolation_mismatch_iff_witness :
    ("a.b", extract_placeholders (jget [("a.b", JValue.str "Hello \x7bx\x7d")] "a.b"),
        extract_placeholders (jget [("a.b", JValue.str "Bonjour \x7by\x7d")] "a.b"))
      ∈ (compareCatalogs [("a.b", JValue.str "Hello \x7bx\x7d")]
          [("a.b", JValue.str "Bonjour \x7by\x7d")]).interpolation_mismatches ↔
      ¬ sameSet (extract_placeholders (jget [("a.b", JValue.str "Hello \x7bx\x7d")] "a.b"))
        (extract_placeholders (jget [("a.b", JValue.str "Bonjour \x7by\x7d")] "a.b")) :=
  interpolation_mismatch_iff.1 [("a.b", JValue.str "Hello \x7bx\x7d")]
    [("a.b", JValue.str "Bonjour \x7by\x7d")] "a.b" (by decide) (by decide)

/-- C7: the placeholder extractor returns the empty set on every non-string
leaf, and on the three concrete strings of the spec it returns exactly the
stated token sets. -/
theorem extract_placeholders_basic :
    (∀ v : JValue, isStr v = false → extract_placeholders v = [])
    ∧ extract_placeholders (JValue.str "Hello \x7bname\x7d, you have \x7bcount\x7d items")
        = ["\x7bname\x7d", "\x7bcount\x7d"]
    ∧ extract_placeholders (JValue.str "no placeholders") = []
    ∧ extract_placeholders (JValue.str "") = [] := by
  refine ⟨?_, by decide, by decide, by decide⟩
  intro v hv
  cases v <;> first
    | rfl
    | simp [isStr] at hv

/-- Instantiation of `extract_placeholders_basic` at the non-string leaf `5`. -/
theorem extract_placeholders_basic_witness :
    isStr (JValue.num 5) = false ∧ extract_placeholders (JValue.num 5) = [] :=
  ⟨by decide, extract_placeholders_basic.1 (JValue.num 5) (by decide)⟩

/-- Every token emitted by the placeholder scanner is a brace-delimited span
with a non-empty brace-free body, provided the pending body in the scanner
state is brace-free (trivially so for the initial state `none`). -/
theorem scanPH_shape : ∀ (cs : List Char) (st : Option (List Char)),
    (∀ acc, st = some acc → ∀ c ∈ acc, ¬c = '{' ∧ ¬c = '}') →
    ∀ t ∈ scanPH cs st,
      ∃ bs : List Char, t.data = '{' :: (bs ++ ['}']) ∧ bs ≠ []
        ∧ ∀ c ∈ bs, ¬c = '{' ∧ ¬c = '}'
  | [], st => by simp [scanPH]
  | c :: rest, none => by
      intro hst t ht
      by_cases hc : c = '{'
      · simp only [scanPH, if_pos hc] at ht
        exact scanPH_shape rest (some []) (by simp) t ht
      · simp only [scanPH, if_neg hc] at ht
        exact scanPH_shape rest none (by simp) t ht
  | c :: rest, some acc => by
      intro hst t ht
      have hacc : ∀ c2 ∈ acc, ¬c2 = '{' ∧ ¬c2 = '}' := hst acc rfl
      by_cases hc : c = '}'
      · by_cases hemp : acc.isEmpty
        · simp only [scanPH, if_pos hc, if_pos hemp] at ht
          exact scanPH_shape rest none (by simp) t ht
        · simp only [scanPH, if_pos hc, if_neg hemp] at ht
          rcases List.mem_cons.mp ht with heq | hmem
          · refine ⟨acc.reverse, ?_, ?_, ?_⟩
            · rw [heq]
              rfl
            · intro hrev
              rw [List.reverse_eq_nil_iff] at hrev
              rw [hrev] at hemp
              exact hemp rfl
            · intro c2 hc2
              exact hacc c2 (List.mem_reverse.mp hc2)
          · exact scanPH_shape rest none (by simp) t hmem
      · by_cases hc2 : c = '{'
        · simp only [scanPH, if_neg hc, if_pos hc2] at ht
          exact scanPH_shape rest (some []) (by simp) t ht
        · simp only [scanPH, if_neg hc, if_neg hc2] at ht
          refine scanPH_shape rest (some (c :: acc)) ?_ t ht
          intro acc2 hacc2
          cases hacc2
          intro c3 hc3
          rcases List.mem_cons.mp hc3 with h | h
          · exact ⟨h ▸ hc2, h ▸ hc⟩
          · exact hacc c3 h

/-- C10: every token the extractor returns on any string is a brace-delimited
span whose body is non-empty and brace-free; the empty-brace span is never a
token (`a\x7b\x7db` yields nothing), while any non-empty brace-free body
qualifies even when it is not an identifier (`\x7b \x7d` is a token). -/
theorem placeholder_token_shape :
    (∀ (s : String), ∀ t ∈ extract_placeholders (JValue.str s),
      ∃ bs : List Char, t.data = '{' :: (bs ++ ['}']) ∧ bs ≠ []
        ∧ ∀ c ∈ bs, ¬c = '{' ∧ ¬c = '}')
    ∧ extract_placeholders (JValue.str "a\x7b\x7db") = []
    ∧ extract_placeholders (JValue.str "\x7b \x7d") = ["\x7b \x7d"] := by
  refine ⟨?_, by decide, by decide⟩
  intro s t ht
  have hmem : t ∈ scanPH s.data none := by
    rw [extract_placeholders] at ht
    exact List.mem_dedup.mp ht
  exact scanPH_shape s.data none (by simp) t hmem

/-- Instantiation of `placeholder_token_shape` at `s = "x\x7bq\x7dy"` and its
token `\x7bq\x7d`. -/
theorem placeholder_token_shape_witness :
    ∃ bs : List Char, "\x7bq\x7d".data = '{' :: (bs ++ ['}']) ∧ bs ≠ []
      ∧ ∀ c ∈ bs, ¬c = '{' ∧ ¬c = '}' :=
  placeholder_token_shape.1 "x\x7bq\x7dy" "\x7bq\x7d" (by decide)

/-- C6 (amended): comparing any catalog against a structural copy of itself
yields empty `missing`, `extra` and `interpolation_mismatches`, and
`same_as_en` equal to the shared keys that are not under an excluded prefix
and whose reference value is not the empty string.  (The original claim
omitted the non-empty-value condition; `identical_catalogs_counterexample`
shows it is needed.) -/
theorem identical_catalogs_compare (cat : JFields) :
    (compareCatalogs (get_keys cat "") (get_keys cat "")).missing = []
    ∧ (compareCatalogs (get_keys cat "") (get_keys cat "")).extra = []
    ∧ (compareCatalogs (get_keys cat "") (get_keys cat "")).interpolation_mismatches = []
    ∧ (compareCatalogs (get_keys cat "") (get_keys cat "")).same_as_en
        = (fkeys (get_keys cat "")).filter
            (fun k => !(beqV (jget (get_keys cat "") k) (JValue.str ""))
              && !(pyStartsWith k "app.") && !(pyStartsWith k "languages.")) := by
  refine ⟨?_, ?_, ?_, ?_⟩
  · rw [compareCatalogs]
    exact List.filter_eq_nil_iff.mpr (by simp)
  · rw [compareCatalogs]
    exact List.filter_eq_nil_iff.mpr (by simp)
  · rw [compareCatalogs]
    refine List.filterMap_eq_nil_iff.mpr ?_
    intro k _
    simp [pySetEqB_refl]
  · rw [compareCatalogs]
    have hshared : (fkeys (get_keys cat "")).filter
        (fun k => decide (k ∈ fkeys (get_keys cat ""))) = fkeys (get_keys cat "") :=
      List.filter_eq_self.mpr (by simp)
    rw [hshared]
    exact List.filter_congr (by intro k _; simp [beqV_refl])

/-- Counterexample to C6 as stated: for the catalog `\x7b"a": ""\x7d` compared
with its structural copy, `same_as_en` is empty although the shared key `a` is
not under any excluded prefix. -/
theorem identical_catalogs_counterexample :
    (compareCatalogs (get_keys (JFields.cons "a" (JValue.str "") JFields.nil) "")
        (get_keys (JFields.cons "a" (JValue.str "") JFields.nil) "")).same_as_en = []
    ∧ (fkeys (get_keys (JFields.cons "a" (JValue.str "") JFields.nil) "")).filter
        (fun k => !(pyStartsWith k "app.") && !(pyStartsWith k "languages.")) = ["a"] := by
  decide

/-- C8 (amended): when the reference locale file is absent the program prints
the error message on the standard output stream — not the error stream —
and terminates with exit status 1, before loading or comparing any target
catalog (the outcome is independent of the target files and no report is
written). -/
theorem missing_reference_fatal (en : JFields)
    (files : List (String × Except String JFields)) :
    runMain false en files
      = { out := ["Error: src/locales/en.json not found"], err := [], exitCode := 1,
          reportFile := none } :=
  rfl

/-- Counterexample to C8 as stated: in the missing-reference run nothing is
printed to the error stream; the message goes to standard output. -/
theorem missing_reference_stream_counterexample :
    (runMain false JFields.nil []).err = []
    ∧ (runMain false JFields.nil []).out = ["Error: src/locales/en.json not found"]
    ∧ (runMain false JFields.nil []).exitCode = 1 := by
  decide

/-- A run-loop input containing a failed parse always aborts the whole loop
with that or an earlier file's error. -/
theorem runTargets_error (en : List (String × JValue)) :
    ∀ (l : List (String × Except String JFields)) (name e : String),
      (name, Except.error e) ∈ l → ∃ m, runTargets en l = Except.error m
  | [], name, e, h => absurd h (List.not_mem_nil _)
  | (_, Except.error e2) :: _, _, _, _ => ⟨e2, rfl⟩
  | (n2, Except.ok d) :: rest, name, e, h => by
      have hrest : (name, Except.error e) ∈ rest := by
        rcases List.mem_cons.mp h with heq | hm
        · simp at heq
        · exact hm
      obtain ⟨m, hm⟩ := runTargets_error en rest name e hrest
      exact ⟨m, by simp [runTargets, hm]⟩

/-- C4 (amended): a target catalog file that fails to parse or read makes the
uncaught exception propagate out of the run loop — the batch is aborted with
exit status 1 and no report is produced, instead of skipping the file and
continuing.  (`per_file_isolation_counterexample` refutes the claim as
stated.) -/
theorem target_parse_failure_aborts_batch (en : JFields)
    (files : List (String × Except String JFields)) (name e : String)
    (hmem : (name, Except.error e) ∈ files)
    (hjson : pyEndsWith name ".json" = true) (hname : name ≠ "en.json") :
    (runMain true en files).reportFile = none ∧ (runMain true en files).exitCode = 1 := by
  have hmem2 : (name, Except.error e) ∈ targetsOf files := by
    rw [targetsOf, List.mem_filter]
    refine ⟨((List.perm_insertionSort _ files).mem_iff).mpr hmem, by simp [hjson, hname]⟩
  obtain ⟨m, hm⟩ := runTargets_error (get_keys en "") (targetsOf files) name e hmem2
  constructor <;> simp [runMain, hm]

/-- Instantiation of `target_parse_failure_aborts_batch`: one bad target file
among two aborts the whole run. -/
theorem target_parse_failure_aborts_batch_witness :
    (runMain true JFields.nil
        [("aa.json", Except.error "Expecting value: line 1 column 1 (char 0)"),
         ("bb.json", Except.ok JFields.nil)]).reportFile = none
    ∧ (runMain true JFields.nil
        [("aa.json", Except.error "Expecting value: line 1 column 1 (char 0)"),
         ("bb.json", Except.ok JFields.nil)]).exitCode = 1 :=
  target_parse_failure_aborts_batch JFields.nil
    [("aa.json", Except.error "Expecting value: line 1 column 1 (char 0)"),
     ("bb.json", Except.ok JFields.nil)]
    "aa.json" "Expecting value: line 1 column 1 (char 0)"
    (List.mem_cons_self _ _) (by decide) (by decide)

/-- Counterexample to C4 as stated: with one unparsable target file and one
good one, the run ends with the exception on the error stream, exit status 1,
and no report at all — the good file's section is not produced and the failure
is not noted in any report. -/
theorem per_file_isolation_counterexample :
    runMain true JFields.nil
        [("aa.json", Except.error "Expecting value: line 1 column 1 (char 0)"),
         ("bb.json", Except.ok JFields.nil)]
      = { out := [], err := ["Expecting value: line 1 column 1 (char 0)"], exitCode := 1,
          reportFile := none } := by
  decide

theorem get_keys_length : ∀ (fs : JFields) (pfx : String),
    (get_keys fs pfx).length = leafCount fs
  | JFields.nil, _ => rfl
  | JFields.cons k (JValue.obj fs2) rest, pfx => by
      simp [get_keys, leafCount, get_keys_length fs2 (childPath pfx k), get_keys_length rest pfx]
  | JFields.cons k (JValue.str s) rest, pfx => by
      simp [get_keys, leafCount, get_keys_length rest pfx, Nat.add_comm]
  | JFields.cons k (JValue.num n) rest, pfx => by
      simp [get_keys, leafCount, get_keys_length rest pfx, Nat.add_comm]
  | JFields.cons k (JValue.bool b) rest, pfx => by
      simp [get_keys, leafCount, get_keys_length rest pfx, Nat.add_comm]
  | JFields.cons k JValue.null rest, pfx => by
      simp [get_keys, leafCount, get_keys_length rest pfx, Nat.add_comm]

theorem joinSegs_cons (pfx k : String) (p : List String) :
    joinSegs pfx (k :: p) = joinSegs (childPath pfx k) p :=
  rfl

theorem get_keys_map_fst : ∀ (fs : JFields) (pfx : String),
    (get_keys fs pfx).map Prod.fst = (pathSegs fs).map (fun p => joinSegs pfx p)
  | JFields.nil, _ => rfl
  | JFields.cons k (JValue.obj fs2) rest, pfx => by
      simp only [get_keys, pathSegs, List.map_append, List.map_map,
        get_keys_map_fst fs2 (childPath pfx k), get_keys_map_fst rest pfx]
      rfl
  | JFields.cons k (JValue.str s) rest, pfx => by
      simp [get_keys, pathSegs, joinSegs, get_keys_map_fst rest pfx, joinSegs_cons]
  | JFields.cons k (JValue.num n) rest, pfx => by
      simp [get_keys, pathSegs, joinSegs, get_keys_map_fst rest pfx, joinSegs_cons]
  | JFields.cons k (JValue.bool b) rest, pfx => by
      simp [get_keys, pathSegs, joinSegs, get_keys_map_fst rest pfx, joinSegs_cons]
  | JFields.cons k JValue.null rest, pfx => by
      simp [get_keys, pathSegs, joinSegs, get_keys_map_fst rest pfx, joinSegs_cons]

theorem pathSegs_heads : ∀ (fs : JFields), ∀ p ∈ pathSegs fs,
    ∃ k t, p = k :: t ∧ k ∈ fieldKeys fs
  | JFields.nil => by simp [pathSegs]
  | JFields.cons k (JValue.obj fs2) rest => by
      intro p hp
      rw [pathSegs, List.mem_append] at hp
      rcases hp with hl | hr
      · rw [List.mem_map] at hl
        obtain ⟨q, _, hq⟩ := hl
        exact ⟨k, q, hq.symm, by simp [fieldKeys]⟩
      · obtain ⟨k2, t, ht, hk2⟩ := pathSegs_heads rest p hr
        exact ⟨k2, t, ht, by simp [fieldKeys, hk2]⟩
  | JFields.cons k (JValue.str s) rest => by
      intro p hp
      simp only [pathSegs, List.mem_cons] at hp
      rcases hp with he | hr
      · exact ⟨k, [], he, by simp [fieldKeys]⟩
      · obtain ⟨k2, t, ht, hk2⟩ := pathSegs_heads rest p hr
        exact ⟨k2, t, ht, by simp [fieldKeys, hk2]⟩
  | JFields.cons k (JValue.num n) rest => by
      intro p hp
      simp only [pathSegs, List.mem_cons] at hp
      rcases hp with he | hr
      · exact ⟨k, [], he, by simp [fieldKeys]⟩
      · obtain ⟨k2, t, ht, hk2⟩ := pathSegs_heads rest p hr
        exact ⟨k2, t, ht, by simp [fieldKeys, hk2]⟩
  | JFields.cons k (JValue.bool b) rest => by
      intro p hp
      simp only [pathSegs, List.mem_cons] at hp
      rcases hp with he | hr
      · exact ⟨k, [], he, by simp [fieldKeys]⟩
      · obtain ⟨k2, t, ht, hk2⟩ := pathSegs_heads rest p hr
        exact ⟨k2, t, ht, by simp [fieldKeys, hk2]⟩
  | JFields.cons k JValue.null rest => by
      intro p hp
      simp only [pathSegs, List.mem_cons] at hp
      rcases hp with he | hr
      · exact ⟨k, [], he, by simp [fieldKeys]⟩
      · obtain ⟨k2, t, ht, hk2⟩ := pathSegs_heads rest p hr
        exact ⟨k2, t, ht, by simp [fieldKeys, hk2]⟩

theorem goodF_parts {k : String} {v : JValue} {rest : JFields}
    (h : goodF (JFields.cons k v rest) = true) :
    goodKey k = true ∧ goodV v = true ∧ k ∉ fieldKeys rest ∧ goodF rest = true := by
  rw [goodF, Bool.and_eq_true, Bool.and_eq_true, Bool.and_eq_true] at h
  refine ⟨h.1.1.1, h.1.1.2, ?_, h.2⟩
  have := h.1.2
  simpa using this

theorem pathSegs_good : ∀ (fs : JFields), goodF fs = true →
    ∀ p ∈ pathSegs fs, ∀ s ∈ p, goodKey s = true
  | JFields.nil => by simp [pathSegs]
  | JFields.cons k (JValue.obj fs2) rest => by
      intro hg p hp s hs
      obtain ⟨hk, hv, _, hrest⟩ := goodF_parts hg
      rw [goodV] at hv
      rw [pathSegs, List.mem_append] at hp
      rcases hp with hl | hr
      · rw [List.mem_map] at hl
        obtain ⟨q, hq, hqe⟩ := hl
        rw [← hqe] at hs
        rcases List.mem_cons.mp hs with he | hm
        · rw [he]; exact hk
        · exact pathSegs_good fs2 hv q hq s hm
      · exact pathSegs_good rest hrest p hr s hs
  | JFields.cons k (JValue.str s0) rest => by
      intro hg p hp s hs
      obtain ⟨hk, _, _, hrest⟩ := goodF_parts hg
      simp only [pathSegs, List.mem_cons] at hp
      rcases hp with he | hr
      · rw [he] at hs
        rcases List.mem_cons.mp hs with he2 | hm
        · rw [he2]; exact hk
        · simp at hm
      · exact pathSegs_good rest hrest p hr s hs
  | JFields.cons k (JValue.num n) rest => by
      intro hg p hp s hs
      obtain ⟨hk, _, _, hrest⟩ := goodF_parts hg
      simp only [pathSegs, List.mem_cons] at hp
      rcases hp with he | hr
      · rw [he] at hs
        rcases List.mem_cons.mp hs with he2 | hm
        · rw [he2]; exact hk
        · simp at hm
      · exact pathSegs_good rest hrest p hr s hs
  | JFields.cons k (JValue.bool b) rest => by
      intro hg p hp s hs
      obtain ⟨hk, _, _, hrest⟩ := goodF_parts hg
      simp only [pathSegs, List.mem_cons] at hp
      rcases hp with he | hr
      · rw [he] at hs
        rcases List.mem_cons.mp hs with he2 | hm
        · rw [he2]; exact hk
        · simp at hm
      · exact pathSegs_good rest hrest p hr s hs
  | JFields.cons k JValue.null rest => by
      intro hg p hp s hs
      obtain ⟨hk, _, _, hrest⟩ := goodF_parts hg
      simp only [pathSegs, List.mem_cons] at hp
      rcases hp with he | hr
      · rw [he] at hs
        rcases List.mem_cons.mp hs with he2 | hm
        · rw [he2]; exact hk
        · simp at hm
      · exact pathSegs_good rest hrest p hr s hs

theorem pathSegs_nodup : ∀ (fs : JFields), goodF fs = true → (pathSegs fs).Nodup
  | JFields.nil => by simp [pathSegs]
  | JFields.cons k (JValue.obj fs2) rest => by
      intro hg
      obtain ⟨_, hv, hknotin, hrest⟩ := goodF_parts hg
      rw [goodV] at hv
      rw [pathSegs]
      refine List.Nodup.append ?_ (pathSegs_nodup rest hrest) ?_
      · exact (pathSegs_nodup fs2 hv).map (fun x y h => by simpa using h)
      · rw [List.disjoint_left]
        intro p hp hpr
        rw [List.mem_map] at hp
        obtain ⟨q, _, hqe⟩ := hp
        obtain ⟨k2, t, ht, hk2⟩ := pathSegs_heads rest p hpr
        rw [← hqe] at ht
        have : k = k2 := (List.cons.injEq _ _ _ _ ▸ ht).1
        exact hknotin (this ▸ hk2)
  | JFields.cons k (JValue.str s) rest => by
      intro hg
      obtain ⟨_, _, hknotin, hrest⟩ := goodF_parts hg
      simp only [pathSegs, List.nodup_cons]
      refine ⟨?_, pathSegs_nodup rest hrest⟩
      intro hmem
      obtain ⟨k2, t, ht, hk2⟩ := pathSegs_heads rest [k] hmem
      have : k = k2 := (List.cons.injEq _ _ _ _ ▸ ht).1
      exact hknotin (this ▸ hk2)
  | JFields.cons k (JValue.num n) rest => by
      intro hg
      obtain ⟨_, _, hknotin, hrest⟩ := goodF_parts hg
      simp only [pathSegs, List.nodup_cons]
      refine ⟨?_, pathSegs_nodup rest hrest⟩
      intro hmem
      obtain ⟨k2, t, ht, hk2⟩ := pathSegs_heads rest [k] hmem
      have : k = k2 := (List.cons.injEq _ _ _ _ ▸ ht).1
      exact hknotin (this ▸ hk2)
  | JFields.cons k (JValue.bool b) rest => by
      intro hg
      obtain ⟨_, _, hknotin, hrest⟩ := goodF_parts hg
      simp only [pathSegs, List.nodup_cons]
      refine ⟨?_, pathSegs_nodup rest hrest⟩
      intro hmem
      obtain ⟨k2, t, ht, hk2⟩ := pathSegs_heads rest [k] hmem
      have : k = k2 := (List.cons.injEq _ _ _ _ ▸ ht).1
      exact hknotin (this ▸ hk2)
  | JFields.cons k JValue.null rest => by
      intro hg
      obtain ⟨_, _, hknotin, hrest⟩ := goodF_parts hg
      simp only [pathSegs, List.nodup_cons]
      refine ⟨?_, pathSegs_nodup rest hrest⟩
      intro hmem
      obtain ⟨k2, t, ht, hk2⟩ := pathSegs_heads rest [k] hmem
      have : k = k2 := (List.cons.injEq _ _ _ _ ▸ ht).1
      exact hknotin (this ▸ hk2)

theorem str_data_inj (a b : String) (h : a.data = b.data) : a = b :=
  String.ext h

theorem goodKey_spec (s : String) : goodKey s = true ↔ s ≠ "" ∧ '.' ∉ s.data := by
  simp [goodKey]

theorem data_append_dot (k x : String) :
    (k ++ "." ++ x).data = k.data ++ '.' :: x.data := by
  rw [String.data_append, String.data_append]
  simp

theorem dot_chunk : ∀ (as bs xs ys : List Char), '.' ∉ as → '.' ∉ bs →
    as ++ '.' :: xs = bs ++ '.' :: ys → as = bs ∧ xs = ys := by
  intro as
  induction as with
  | nil =>
    intro bs xs ys _ hbs h
    cases bs with
    | nil => simpa using h
    | cons b bs2 =>
      simp only [List.nil_append, List.cons_append, List.cons.injEq] at h
      exact absurd (h.1 ▸ List.mem_cons_self b bs2) hbs
  | cons a as2 ih =>
    intro bs xs ys has hbs h
    cases bs with
    | nil =>
      simp only [List.nil_append, List.cons_append, List.cons.injEq] at h
      exact absurd (h.1 ▸ List.mem_cons_self a as2) (h.1 ▸ has)
    | cons b bs2 =>
      simp only [List.cons_append, List.cons.injEq] at h
      have has2 : '.' ∉ as2 := fun hm => has (List.mem_cons_of_mem a hm)
      have hbs2 : '.' ∉ bs2 := fun hm => hbs (List.mem_cons_of_mem b hm)
      obtain ⟨h1, h2⟩ := ih bs2 xs ys has2 hbs2 h.2
      exact ⟨by rw [h.1, h1], h2⟩

theorem dotJoin_cons (k : String) (rest : List String) (h : rest ≠ []) :
    dotJoin (k :: rest) = k ++ "." ++ dotJoin rest := by
  cases rest with
  | nil => exact absurd rfl h
  | cons r rs => rfl

theorem dot_mem_dotJoin (k : String) (rest : List String) (h : rest ≠ []) :
    '.' ∈ (dotJoin (k :: rest)).data := by
  rw [dotJoin_cons k rest h, data_append_dot]
  simp

theorem dotJoin_inj : ∀ (p q : List String),
    (∀ s ∈ p, goodKey s = true) → (∀ s ∈ q, goodKey s = true) →
    p ≠ [] → q ≠ [] → dotJoin p = dotJoin q → p = q := by
  intro p
  induction p with
  | nil => intro q _ _ hp; exact absurd rfl hp
  | cons a as ih =>
    intro q hgp hgq _ hq heq
    cases q with
    | nil => exact absurd rfl hq
    | cons b bs =>
      cases as with
      | nil =>
        cases bs with
        | nil =>
          have : a = b := heq
          rw [this]
        | cons b2 bs2 =>
          have hdot : '.' ∈ (dotJoin (b :: b2 :: bs2)).data :=
            dot_mem_dotJoin b (b2 :: bs2) (by simp)
          rw [← heq] at hdot
          have hga := (goodKey_spec a).mp (hgp a (List.mem_cons_self a []))
          exact absurd hdot hga.2
      | cons a2 as2 =>
        cases bs with
        | nil =>
          have hdot : '.' ∈ (dotJoin (a :: a2 :: as2)).data :=
            dot_mem_dotJoin a (a2 :: as2) (by simp)
          rw [heq] at hdot
          have hgb := (goodKey_spec b).mp (hgq b (List.mem_cons_self b []))
          exact absurd hdot hgb.2
        | cons b2 bs2 =>
          rw [dotJoin_cons a (a2 :: as2) (by simp),
            dotJoin_cons b (b2 :: bs2) (by simp)] at heq
          have hdata := congrArg String.data heq
          rw [data_append_dot, data_append_dot] at hdata
          have hga := (goodKey_spec a).mp (hgp a (List.mem_cons_self a _))
          have hgb := (goodKey_spec b).mp (hgq b (List.mem_cons_self b _))
          obtain ⟨h1, h2⟩ := dot_chunk a.data b.data _ _ hga.2 hgb.2 hdata
          have hab : a = b := str_data_inj a b h1
          have hrest : dotJoin (a2 :: as2) = dotJoin (b2 :: bs2) :=
            str_data_inj _ _ h2
          have htail : a2 :: as2 = b2 :: bs2 := by
            refine ih (b2 :: bs2) ?_ ?_ (by simp) (by simp) hrest
            · intro s hs; exact hgp s (List.mem_cons_of_mem a hs)
            · intro s hs; exact hgq s (List.mem_cons_of_mem b hs)
          rw [hab, htail]

theorem childPath_ne_empty (pfx k : String) (h : pfx ≠ "") : childPath pfx k ≠ "" := by
  rw [childPath, if_neg h]
  intro hc
  have := congrArg String.data hc
  rw [data_append_dot] at this
  simp at this

theorem joinSegs_ne_root : ∀ (p : List String) (pfx : String), pfx ≠ "" → p ≠ [] →
    joinSegs pfx p = pfx ++ "." ++ dotJoin p := by
  intro p
  induction p with
  | nil => intro pfx _ hp; exact absurd rfl hp
  | cons k rest ih =>
    intro pfx hpfx _
    cases rest with
    | nil =>
      show joinSegs (childPath pfx k) [] = pfx ++ "." ++ dotJoin [k]
      show childPath pfx k = pfx ++ "." ++ k
      rw [childPath, if_neg hpfx]
    | cons r2 rs =>
      rw [joinSegs_cons, ih (childPath pfx k) (childPath_ne_empty pfx k hpfx) (by simp),
        dotJoin_cons k (r2 :: rs) (by simp), childPath, if_neg hpfx]
      simp [String.append_assoc]

theorem joinSegs_root (p : List String) (hne : p ≠ [])
    (hg : ∀ s ∈ p, goodKey s = true) : joinSegs "" p = dotJoin p := by
  cases p with
  | nil => exact absurd rfl hne
  | cons k rest =>
    rw [joinSegs_cons]
    have hck : childPath "" k = k := by rw [childPath, if_pos rfl]
    rw [hck]
    cases rest with
    | nil => rfl
    | cons r2 rs =>
      have hk : k ≠ "" := ((goodKey_spec k).mp (hg k (List.mem_cons_self k _))).1
      rw [joinSegs_ne_root (r2 :: rs) k hk (by simp), dotJoin_cons k (r2 :: rs) (by simp)]

/-- C5 (amended): provided every key of the catalog is non-empty and dot-free
and sibling keys are distinct — the conditions under which the dotted
addressing scheme is unambiguous — flattening assigns each leaf a distinct key
path, so the flat catalog loses no leaf: its size equals the leaf count.
(`flatten_path_collision_counterexample` shows the claim fails for arbitrary
catalogs, where a key may itself contain a dot.) -/
theorem flatten_paths_unique_amended (cat : JFields) (hgood : goodF cat = true) :
    ((get_keys cat "").map Prod.fst).Nodup
    ∧ (fkeys (get_keys cat "")).length = leafCount cat := by
  have hmap := get_keys_map_fst cat ""
  have hnd : ((pathSegs cat).map (fun p => joinSegs "" p)).Nodup := by
    refine List.Nodup.map_on ?_ (pathSegs_nodup cat hgood)
    intro p hp q hq hjoin
    have hgp := pathSegs_good cat hgood p hp
    have hgq := pathSegs_good cat hgood q hq
    obtain ⟨kp, tp, hpe, _⟩ := pathSegs_heads cat p hp
    obtain ⟨kq, tq, hqe, _⟩ := pathSegs_heads cat q hq
    have hpne : p ≠ [] := by rw [hpe]; simp
    have hqne : q ≠ [] := by rw [hqe]; simp
    rw [joinSegs_root p hpne hgp, joinSegs_root q hqne hgq] at hjoin
    exact dotJoin_inj p q hgp hgq hpne hqne hjoin
  have hnd2 : ((get_keys cat "").map Prod.fst).Nodup := hmap ▸ hnd
  refine ⟨hnd2, ?_⟩
  rw [fkeys, List.Nodup.dedup hnd2, List.length_map, get_keys_length]

/-- Instantiation of `flatten_paths_unique_amended` at a concrete well-formed
catalog with a nested node. -/
theorem flatten_paths_unique_amended_witness :
    goodF (JFields.cons "app" (JValue.obj (JFields.cons "name" (JValue.str "Zed") JFields.nil))
        (JFields.cons "greet" (JValue.str "Hello") JFields.nil)) = true
    ∧ (((get_keys (JFields.cons "app"
            (JValue.obj (JFields.cons "name" (JValue.str "Zed") JFields.nil))
            (JFields.cons "greet" (JValue.str "Hello") JFields.nil)) "").map Prod.fst).Nodup
        ∧ (fkeys (get_keys (JFields.cons "app"
            (JValue.obj (JFields.cons "name" (JValue.str "Zed") JFields.nil))
            (JFields.cons "greet" (JValue.str "Hello") JFields.nil)) "")).length
          = leafCount (JFields.cons "app"
            (JValue.obj (JFields.cons "name" (JValue.str "Zed") JFields.nil))
            (JFields.cons "greet" (JValue.str "Hello") JFields.nil))) :=
  ⟨by decide, flatten_paths_unique_amended _ (by decide)⟩

/-- Counterexample to C5 as stated: in the catalog
`\x7b"a": \x7b"b": "1"\x7d, "a.b": "2"\x7d` the two distinct leaves both get
the key path `a.b`, so the flattened dict has one entry for two leaves — a
leaf is lost. -/
theorem flatten_path_collision_counterexample :
    ((get_keys (JFields.cons "a" (JValue.obj (JFields.cons "b" (JValue.str "1") JFields.nil))
          (JFields.cons "a.b" (JValue.str "2") JFields.nil)) "").map Prod.fst
        = ["a.b", "a.b"])
    ∧ ¬ ((get_keys (JFields.cons "a" (JValue.obj (JFields.cons "b" (JValue.str "1") JFields.nil))
          (JFields.cons "a.b" (JValue.str "2") JFields.nil)) "").map Prod.fst).Nodup
    ∧ leafCount (JFields.cons "a" (JValue.obj (JFields.cons "b" (JValue.str "1") JFields.nil))
          (JFields.cons "a.b" (JValue.str "2") JFields.nil)) = 2
    ∧ (fkeys (get_keys (JFields.cons "a" (JValue.obj (JFields.cons "b" (JValue.str "1") JFields.nil))
          (JFields.cons "a.b" (JValue.str "2") JFields.nil)) "")).length = 1 := by
  refine ⟨by decide, ?_, by decide, by decide⟩
  decide

theorem lexLe_total : ∀ (as bs : List Char), lexLe as bs = true ∨ lexLe bs as = true
  | [], _ => Or.inl rfl
  | _ :: _, [] => Or.inr rfl
  | a :: as, b :: bs => by
      rcases lt_trichotomy a b with h | h | h
      · left
        simp [lexLe, h]
      · subst h
        rcases lexLe_total as bs with h2 | h2
        · left
          simp [lexLe, h2]
        · right
          simp [lexLe, h2]
      · right
        simp [lexLe, h]

theorem lexLe_trans : ∀ (as bs cs : List Char),
    lexLe as bs = true → lexLe bs cs = true → lexLe as cs = true
  | [], _, _ => fun _ _ => rfl
  | _ :: _, [], _ => by
      intro h _
      simp [lexLe] at h
  | _ :: _, _ :: _, [] => by
      intro _ h
      simp [lexLe] at h
  | a :: as, b :: bs, c :: cs => by
      intro h1 h2
      by_cases hab : a < b
      · by_cases hbc : b < c
        · simp [lexLe, lt_trans hab hbc]
        · have hbc2 : b = c := by
            by_contra hne
            simp [lexLe, hbc, hne] at h2
          subst hbc2
          simp [lexLe, hab]
      · have hab2 : a = b := by
          by_contra hne
          simp [lexLe, hab, hne] at h1
        subst hab2
        by_cases hac : a < c
        · simp [lexLe, hac]
        · have hac2 : a = c := by
            by_contra hne
            simp [lexLe, hac, hne] at h2
          subst hac2
          simp only [lexLe, if_neg hac, if_pos rfl] at h1 h2 ⊢
          have has : lexLe as bs = true := by simpa [lt_irrefl] using h1
          have hbs : lexLe bs cs = true := by simpa [lt_irrefl] using h2
          exact lexLe_trans as bs cs has hbs

theorem orderedInsert_map_okFile (x : String × JFields) :
    ∀ (l : List (String × JFields)),
      List.orderedInsert (fun a b => strle a.1 b.1 = true) (okFile x) (l.map okFile)
        = (List.orderedInsert (fun a b => strle a.1 b.1 = true) x l).map okFile
  | [] => rfl
  | y :: ys => by
      rw [List.map_cons, List.orderedInsert, List.orderedInsert]
      by_cases h : strle x.1 y.1 = true
      · rw [if_pos (show strle (okFile x).1 (okFile y).1 = true from h), if_pos h]
        rfl
      · rw [if_neg (show ¬strle (okFile x).1 (okFile y).1 = true from h), if_neg h,
          List.map_cons, ← orderedInsert_map_okFile x ys]

theorem insertionSort_map_okFile : ∀ (l : List (String × JFields)),
    List.insertionSort (fun a b => strle a.1 b.1 = true) (l.map okFile)
      = (List.insertionSort (fun a b => strle a.1 b.1 = true) l).map okFile
  | [] => rfl
  | x :: xs => by
      simp only [List.map_cons, List.insertionSort, insertionSort_map_okFile xs]
      exact orderedInsert_map_okFile x _

theorem targetsOf_map_okFile (tgts : List (String × JFields)) :
    targetsOf (tgts.map okFile) = (orderedTargets tgts).map okFile := by
  rw [targetsOf, orderedTargets, insertionSort_map_okFile, List.filter_map]
  rfl

theorem runTargets_ok (en : List (String × JValue)) : ∀ (l : List (String × JFields)),
    runTargets en (l.map okFile)
      = Except.ok (l.map (fun t => renderSection t.1 (compareCatalogs en (get_keys t.2 ""))))
  | [] => rfl
  | t :: ts => by
      simp only [List.map_cons, okFile, runTargets, runTargets_ok en ts]

theorem orderedTargets_sorted (tgts : List (String × JFields)) :
    List.Sorted (fun a b => strle a b = true) ((orderedTargets tgts).map Prod.fst) := by
  haveI : IsTotal (String × JFields) (fun a b => strle a.1 b.1 = true) :=
    ⟨fun a b => lexLe_total a.1.data b.1.data⟩
  haveI : IsTrans (String × JFields) (fun a b => strle a.1 b.1 = true) :=
    ⟨fun a b c hab hbc => lexLe_trans a.1.data b.1.data c.1.data hab hbc⟩
  have hs := List.sorted_insertionSort (fun a b : String × JFields => strle a.1 b.1 = true) tgts
  have hf := hs.filter (fun t => pyEndsWith t.1 ".json" && !(t.1 == "en.json"))
  exact List.pairwise_map.mpr hf

theorem isEmpty_of_length_eq {a : Type} {b : Type} {x : List a} {y : List b}
    (h : x.length = y.length) : x.isEmpty = y.isEmpty := by
  cases x with
  | nil =>
    cases y with
    | nil => rfl
    | cons c cs => simp at h
  | cons c cs =>
    cases y with
    | nil => simp at h
    | cons d ds => rfl

/-- C9: for every run in which all targets parse, the report is the
concatenation of exactly one `renderSection` per qualifying target, in the
lexicographic order of the target file names (conjunct one: report contents,
sortedness of the section order, and the one-to-one correspondence with the
qualifying targets); and each section depends on a defect list only through
its count, the first 20 entries of its sorted form, and the first 10
interpolation mismatches (conjunct two: display truncation). -/
theorem report_structure :
    (∀ (en : JFields) (tgts : List (String × JFields)),
      (runMain true en (tgts.map okFile)).reportFile
        = some (String.intercalate "\n" ((orderedTargets tgts).map (fun t =>
            renderSection t.1 (compareCatalogs (get_keys en "") (get_keys t.2 "")))))
      ∧ List.Sorted (fun a b => strle a b = true) ((orderedTargets tgts).map Prod.fst)
      ∧ (orderedTargets tgts).Perm
          (tgts.filter (fun t => pyEndsWith t.1 ".json" && !(t.1 == "en.json"))))
    ∧ (∀ (name : String) (r r2 : CompareResult),
      r.missing.length = r2.missing.length →
      (sortStr r.missing).take 20 = (sortStr r2.missing).take 20 →
      r.same_as_en.length = r2.same_as_en.length →
      (sortStr r.same_as_en).take 20 = (sortStr r2.same_as_en).take 20 →
      r.extra.length = r2.extra.length →
      (sortStr r.extra).take 20 = (sortStr r2.extra).take 20 →
      r.interpolation_mismatches.length = r2.interpolation_mismatches.length →
      r.interpolation_mismatches.take 10 = r2.interpolation_mismatches.take 10 →
      renderSection name r = renderSection name r2) := by
  constructor
  · intro en tgts
    refine ⟨?_, orderedTargets_sorted tgts, ?_⟩
    · rw [runMain, if_neg (by simp), targetsOf_map_okFile, runTargets_ok]
    · rw [orderedTargets]
      exact (List.perm_insertionSort _ tgts).filter _
  · intro name r r2 h1 h2 h3 h4 h5 h6 h7 h8
    have e1 : r.missing.isEmpty = r2.missing.isEmpty :=
      isEmpty_of_length_eq h1
    have e2 : r.same_as_en.isEmpty = r2.same_as_en.isEmpty :=
      isEmpty_of_length_eq h3
    have e3 : r.extra.isEmpty = r2.extra.isEmpty :=
      isEmpty_of_length_eq h5
    have e4 : r.interpolation_mismatches.isEmpty = r2.interpolation_mismatches.isEmpty :=
      isEmpty_of_length_eq h7
    rw [renderSection, renderSection, e1, e2, e3, e4, h1, h2, h3, h4, h5, h6, h7, h8]

/-- Instantiation of the truncation conjunct of `report_structure`: two results
that differ only in the eleventh interpolation mismatch render identically. -/
theorem report_structure_witness :
    renderSection "fr.json"
        { missing := [], extra := [], same_as_en := [],
          interpolation_mismatches := List.replicate 11 ("k", [], []) }
      = renderSection "fr.json"
        { missing := [], extra := [], same_as_en := [],
          interpolation_mismatches :=
            List.replicate 10 ("k", [], []) ++ [("other", [], [])] } :=
  report_structure.2 "fr.json" _ _ (by decide) (by decide) (by decide) (by decide)
    (by decide) (by decide) (by decide) (by decide)

end CompareLocales
